import Mathlib

/-!
Verification of the student-mgmt-ui referential-integrity engine and list
presentation pipeline, shallowly embedded from the TypeScript sources
(src/pages/Students.tsx, src/pages/Courses.tsx, src/pages/Enrollments.tsx,
src/lib/exportCsv.ts and the unnamed export module).

Conventions of the embedding:
* JavaScript strings are Lean `String`; `toLowerCase()` is `String.toLower`.
* A JS `Map` built by inserting entries in list order (later inserts
  overwrite) and read with `get` is modelled as a left fold returning the
  last exactly-matching record.
* Handlers that bail out with `alert`/`return` before mutating state are
  modelled as `Option`-returning functions (`none` = rejected, state kept).
* `confirm(...)` dialogs are modelled by an explicit `confirmOk : Bool`
  argument (the user's answer).
-/

namespace StudentMgmt

/-- `status` field: the string enum {"Active", "Inactive"} of the zod schemas. -/
inductive Status
  | Active
  | Inactive
deriving DecidableEq

/-- Student record (Students.tsx `studentSchema`): `course` is the denormalized
course-code pointer, `""` meaning "no course". -/
structure Student where
  name : String
  email : String
  course : String
  status : Status
deriving DecidableEq

/-- Course record (Courses.tsx `courseSchema`). -/
structure Course where
  code : String
  title : String
  credits : Nat
  status : Status
deriving DecidableEq

/-- Enrollment record (the localStorage design: natural key is the pair). -/
structure Enrollment where
  studentEmail : String
  courseCode : String
  createdAt : String
deriving DecidableEq

/-- `s.toLowerCase()`: lower-case every character (structural form of
`String.toLower`, written over the character list so that it computes by
kernel reduction). -/
def lowerStr (s : String) : String :=
  ⟨s.data.map Char.toLower⟩

/-- Case-insensitive equality, `a.toLowerCase() === b.toLowerCase()` in the source. -/
def ciEq (a b : String) : Bool :=
  lowerStr a == lowerStr b

/-- The three collections persisted in localStorage, as one state. -/
structure State where
  students : List Student
  courses : List Course
  enrollments : List Enrollment
deriving DecidableEq

/-- `studentsByEmail` map of Enrollments.tsx (and `courseMap` shape): a JS Map
built by `for (const s of students) m.set(s.email, s)` then read with `get k`;
the last record with exactly-equal key wins. -/
def studentsByEmail (students : List Student) (k : String) : Option Student :=
  students.foldl (fun acc s => if s.email == k then some s else acc) none

/-- `coursesByCode` map (Enrollments.tsx) / `courseMap` (Students.tsx). -/
def coursesByCode (courses : List Course) (k : String) : Option Course :=
  courses.foldl (fun acc c => if c.code == k then some c else acc) none

/-! ## loadJSON (Students.tsx lines 50-57, Enrollments.tsx lines 40-47) -/

/-- `loadJSON` guard: `store` abstracts `localStorage.getItem` (null = `none`),
`parse` abstracts `JSON.parse` (a throw = `none`); the source's
`raw ? JSON.parse(raw) : fallback` inside try/catch. An empty string is falsy
in JS, hence also yields the fallback. -/
def loadJSON (store : String → Option String) (parse : String → Option α)
    (key : String) (fallback : α) : α :=
  match store key with
  | none => fallback
  | some raw =>
    if raw = "" then fallback
    else
      match parse raw with
      | none => fallback
      | some v => v

/-! ## Pagination (Students.tsx lines 120-125, Courses.tsx lines 98-100) -/

/-- `pageCount = Math.max(1, Math.ceil(sorted.length / pageSize))`. -/
def pageCount (len pageSize : Nat) : Nat :=
  max 1 ((len + pageSize - 1) / pageSize)

/-- `page = Math.min(pageIndex, pageCount - 1)`. -/
def clampedPage (pageIndex len pageSize : Nat) : Nat :=
  min pageIndex (pageCount len pageSize - 1)

/-- `paged = sorted.slice(page * pageSize, page * pageSize + pageSize)`. -/
def pagedRows (l : List α) (pageIndex pageSize : Nat) : List α :=
  (l.drop (clampedPage pageIndex l.length pageSize * pageSize)).take pageSize

/-! ## Sorting (Students.tsx lines 107-118, Courses.tsx lines 85-96) -/

/-- `sortDir` when non-null. -/
inductive SortDir
  | asc
  | desc
deriving DecidableEq

/-- The JS comparator `(a, b) => av < bv ? (asc ? -1 : 1) : av > bv ? (asc ? 1 : -1) : 0`
where `av = String(a[sortKey]).toLowerCase()`, expressed as the boolean
"a may come no later than b" relation: the comparator is non-positive on (a, b).
For `desc` the comparator itself is flipped (not the final array). -/
def sortLE (key : α → String) (dir : SortDir) (a b : α) : Bool :=
  match dir with
  | .asc => decide (lowerStr (key a) ≤ lowerStr (key b))
  | .desc => decide (lowerStr (key b) ≤ lowerStr (key a))

/-- `sorted`: if `sortDir` is null the filtered list passes through unchanged;
otherwise a copy is stably sorted by the comparator (`Array.prototype.sort` is
stable, so it is modelled by the stable `List.mergeSort` on `sortLE`). -/
def sortedView (key : α → String) (dir : Option SortDir) (l : List α) : List α :=
  match dir with
  | none => l
  | some d => l.mergeSort (sortLE key d)

/-- `String(s.status)` for the status enum. -/
def statusString : Status → String
  | .Active => "Active"
  | .Inactive => "Inactive"

/-- The sortable columns of the Students table. -/
inductive StudentKey
  | name
  | email
  | course
  | status
deriving DecidableEq

/-- `String(a[sortKey])` on a Student. -/
def studentField : StudentKey → Student → String
  | .name, s => s.name
  | .email, s => s.email
  | .course, s => s.course
  | .status, s => statusString s.status

/-! ## CSV export (src/lib/exportCsv.ts, and the unnamed export module) -/

/-- The `/[",\n]/.test(s)` test of `esc` in exportCsv.ts. -/
def hasSpecialChar (s : String) : Bool :=
  s.data.any fun c => c == ',' || c == '"' || c == '\n'

/-- `s.replace(/"/g, '""')`: every literal double-quote is doubled. -/
def doubleQuotes (s : String) : String :=
  ⟨(s.data.map fun c => if c == '"' then ['"', '"'] else [c]).flatten⟩

/-- `esc` of exportCsv.ts: quote-wrap (doubling inner quotes) iff the value
contains a comma, a double-quote or a newline. -/
def esc (s : String) : String :=
  if hasSpecialChar s then "\"" ++ doubleQuotes s ++ "\"" else s

/-- `escape` of the unnamed export module:
`s.includes(",") || s.includes('"') ? quoted : s` - note: no newline test. -/
def escapeField (s : String) : String :=
  if (s.data.any fun c => c == ',' || c == '"') then "\"" ++ doubleQuotes s ++ "\""
  else s

/-- One CSV record of exportCsv.ts: `r.map(esc).join(",")`. -/
def csvLine (fields : List String) : String :=
  String.intercalate "," (fields.map esc)

/-- The full text built by `exportToCsv`: header line then one line per row,
records joined by newline. -/
def exportCsvString (headers : List String) (rows : List (List String)) : String :=
  String.intercalate "\n" (csvLine headers :: rows.map csvLine)

/-! ## Enroll (Enrollments.tsx lines 139-181, `onEnroll`) -/

/-- Outcome of the `onEnroll` handler. The source communicates rejections via
early `return` (silently for a missing selection or record, with an `alert`
otherwise); the constructors name the distinct exit points in program order. -/
inductive EnrollOutcome
  | noSelection
  | notFound
  | studentInactive
  | courseInactive
  | duplicate
  | allowed (newEnrollment : Enrollment)
deriving DecidableEq

/-- `onEnroll`, as written: exact (case-sensitive) Map lookups, status checks
in student-then-course order, and a case-sensitive `===` duplicate-pair check;
on success the new record carries `createdAt = now`. -/
def onEnroll (selectedStudentEmail selectedCourseCode : String)
    (students : List Student) (courses : List Course)
    (enrollments : List Enrollment) (now : String) : EnrollOutcome :=
  if selectedStudentEmail == "" || selectedCourseCode == "" then .noSelection
  else
    match studentsByEmail students selectedStudentEmail,
          coursesByCode courses selectedCourseCode with
    | none, _ => .notFound
    | some _, none => .notFound
    | some s, some c =>
      if s.status ≠ Status.Active then .studentInactive
      else if c.status ≠ Status.Active then .courseInactive
      else if enrollments.any fun e =>
          e.studentEmail == selectedStudentEmail && e.courseCode == selectedCourseCode
        then .duplicate
      else .allowed ⟨selectedStudentEmail, selectedCourseCode, now⟩

/-! ## Student page mutations (Students.tsx) -/

/-- The shared course-selection integrity check of `onAdd`/`onEditSubmit` in
Students.tsx: an empty selection is fine, otherwise the exact code must resolve
in `courseMap` to an Active course. -/
def courseSelectionOk (courses : List Course) (courseField : String) : Bool :=
  if courseField == "" then true
  else
    match coursesByCode courses courseField with
    | none => false
    | some c => c.status == Status.Active

/-- `onAdd` (Students.tsx lines 155-180): reject a case-insensitive duplicate
email, reject a missing or inactive selected course, else append. -/
def onAddStudent (values : Student) (students : List Student)
    (courses : List Course) : Option (List Student) :=
  if students.any fun s => ciEq s.email values.email then none
  else if !courseSelectionOk courses values.course then none
  else some (students ++ [values])

/-- `onEditSubmit` (Students.tsx lines 196-252). `editingEmail` is the email
the edit dialog was opened for; `confirmOk` is the answer to the
turning-inactive confirmation dialog. `none` means the edit was not applied. -/
def onEditStudent (editingEmail : String) (values : Student) (confirmOk : Bool)
    (st : State) : Option State :=
  let emailChanged := !ciEq editingEmail values.email
  if emailChanged && st.students.any fun x => ciEq x.email values.email then none
  else if !courseSelectionOk st.courses values.course then none
  else
    let hadEnrollments := st.enrollments.any fun e => ciEq e.studentEmail editingEmail
    let turningInactive := values.status == Status.Inactive
    if turningInactive && hadEnrollments && !confirmOk then none
    else
      let students' := st.students.map fun s => if s.email == editingEmail then values else s
      let enrollments' :=
        if emailChanged then
          st.enrollments.map fun e =>
            if ciEq e.studentEmail editingEmail then { e with studentEmail := values.email }
            else e
        else st.enrollments
      some { st with students := students', enrollments := enrollments' }

/-- `onDelete` (Students.tsx lines 255-266), post-confirmation effect: remove
the student (exact email) and every enrollment whose `studentEmail` matches
case-insensitively. -/
def onDeleteStudent (target : Student) (st : State) : State :=
  { st with
    students := st.students.filter fun x => x.email != target.email
    enrollments := st.enrollments.filter fun e => !ciEq e.studentEmail target.email }

/-! ## Course page mutations (Courses.tsx, integrity variant) -/

/-- `onAdd` (Courses.tsx lines 118-128): reject a case-insensitive duplicate
code, else append. -/
def onAddCourse (values : Course) (courses : List Course) : Option (List Course) :=
  if courses.any fun c => ciEq c.code values.code then none
  else some (courses ++ [values])

/-- `onSubmit` of the basic Courses page variant (second document in
Courses.tsx, lines 535-541): append unconditionally, with no duplicate check. -/
def onSubmitCourseBasic (values : Course) (courses : List Course) : List Course :=
  courses ++ [values]

/-- `onEditSubmit` (Courses.tsx lines 144-190). On a (case-insensitive) code
change the cascade rewrites matching student `course` pointers and enrollment
`courseCode`s to the new code. -/
def onEditCourse (editingCode : String) (values : Course) (confirmOk : Bool)
    (st : State) : Option State :=
  let codeChanged := !ciEq editingCode values.code
  if codeChanged && st.courses.any fun x => ciEq x.code values.code then none
  else
    let hasEnrollments := st.enrollments.any fun e => ciEq e.courseCode editingCode
    let turningInactive := values.status == Status.Inactive
    if turningInactive && hasEnrollments && !confirmOk then none
    else
      let courses' := st.courses.map fun c => if c.code == editingCode then values else c
      let students' :=
        if codeChanged then
          st.students.map fun s =>
            if ciEq s.course editingCode then { s with course := values.code } else s
        else st.students
      let enrollments' :=
        if codeChanged then
          st.enrollments.map fun e =>
            if ciEq e.courseCode editingCode then { e with courseCode := values.code } else e
        else st.enrollments
      some { students := students', courses := courses', enrollments := enrollments' }

/-- `onDelete` (Courses.tsx lines 193-216), post-confirmation effect: drop the
course (exact code), drop every enrollment whose `courseCode` matches
case-insensitively, clear every case-insensitively matching student pointer. -/
def onDeleteCourse (target : Course) (st : State) : State :=
  { students :=
      st.students.map fun s => if ciEq s.course target.code then { s with course := "" } else s
    courses := st.courses.filter fun x => x.code != target.code
    enrollments := st.enrollments.filter fun e => !ciEq e.courseCode target.code }

/-! ## Enrollment page mutations (Enrollments.tsx) -/

/-- State effect of a click on Enroll: append the new record iff `onEnroll`
reached its success exit, otherwise leave the state unchanged. -/
def applyEnroll (se sc now : String) (st : State) : State :=
  match onEnroll se sc st.students st.courses st.enrollments now with
  | .allowed newE => { st with enrollments := st.enrollments ++ [newE] }
  | _ => st

/-- `onDelete` (Enrollments.tsx lines 183-190): remove the records whose exact
(studentEmail, courseCode) pair equals the clicked row's. -/
def onDeleteEnrollment (en : Enrollment) (st : State) : State :=
  { st with
    enrollments := st.enrollments.filter fun e =>
      !(e.studentEmail == en.studentEmail && e.courseCode == en.courseCode) }

/-! ## The operation alphabet and traces -/

/-- One user-level mutation, drawn from the handlers above. -/
inductive Op
  | addStudent (values : Student)
  | editStudent (editingEmail : String) (values : Student) (confirmOk : Bool)
  | deleteStudent (target : Student)
  | addCourse (values : Course)
  | addCourseBasic (values : Course)
  | editCourse (editingCode : String) (values : Course) (confirmOk : Bool)
  | deleteCourse (target : Course)
  | enroll (se sc now : String)
  | deleteEnrollment (en : Enrollment)
  | clearEnrollments
deriving DecidableEq

/-- Apply one operation; a rejected add/edit leaves the state unchanged. -/
def applyOp (st : State) : Op → State
  | .addStudent v =>
    match onAddStudent v st.students st.courses with
    | none => st
    | some students' => { st with students := students' }
  | .editStudent e v ok => (onEditStudent e v ok st).getD st
  | .deleteStudent t => onDeleteStudent t st
  | .addCourse v =>
    match onAddCourse v st.courses with
    | none => st
    | some courses' => { st with courses := courses' }
  | .addCourseBasic v => { st with courses := onSubmitCourseBasic v st.courses }
  | .editCourse c v ok => (onEditCourse c v ok st).getD st
  | .deleteCourse t => onDeleteCourse t st
  | .enroll se sc now => applyEnroll se sc now st
  | .deleteEnrollment en => onDeleteEnrollment en st
  | .clearEnrollments => { st with enrollments := [] }

/-- Apply a sequence of operations in order. -/
def applyOps (st : State) (ops : List Op) : State :=
  ops.foldl applyOp st

/-- Reachability side condition of the UI: the edit dialogs are opened via
`openEditFor` on a row of the current table, so `editingEmail`/`editingCode`
is always the exact key of a record present at that moment. Other operations
have no such precondition. -/
def ValidOp (st : State) : Op → Prop
  | .editStudent e _ _ => ∃ s ∈ st.students, s.email = e
  | .editCourse c _ _ => ∃ x ∈ st.courses, x.code = c
  | _ => True

/-- Every operation of the trace satisfies its side condition at the state it
is applied in. -/
def ValidTrace : State → List Op → Prop
  | _, [] => True
  | st, op :: ops => ValidOp st op ∧ ValidTrace (applyOp st op) ops

/-- P2: every surviving enrollment references a student and a course that
still exist (existence compared on the case-insensitive natural key). -/
def NoDangling (st : State) : Prop :=
  ∀ e ∈ st.enrollments,
    (∃ s ∈ st.students, ciEq s.email e.studentEmail = true) ∧
    (∃ c ∈ st.courses, ciEq c.code e.courseCode = true)

instance (st : State) : Decidable (NoDangling st) := by
  unfold NoDangling
  infer_instance

/-- P1 for students: no two records share a case-insensitively equal email. -/
def UniqueEmails (students : List Student) : Prop :=
  students.Pairwise fun a b => ¬ciEq a.email b.email = true

/-- P1 for courses: no two records share a case-insensitively equal code. -/
def UniqueCodes (courses : List Course) : Prop :=
  courses.Pairwise fun a b => ¬ciEq a.code b.code = true

instance (students : List Student) : Decidable (UniqueEmails students) := by
  unfold UniqueEmails
  infer_instance

instance (courses : List Course) : Decidable (UniqueCodes courses) := by
  unfold UniqueCodes
  infer_instance

/-- Marks the operations available on the integrity-checking pages, i.e.
everything except the basic Courses variant's unchecked `onSubmit`. -/
def NotBasicAdd : Op → Prop
  | .addCourseBasic _ => False
  | _ => True

/-! # Theorems -/

/-- C10: `loadJSON` is total at the storage boundary - whenever the stored
entry is absent, empty, or not parseable, it returns the supplied fallback
unchanged (exceptions of `JSON.parse` are the `parse _ = none` case; the
try/catch makes every such outcome the fallback, never a crash). -/
theorem loadJSON_guard (store : String → Option String) (parse : String → Option α)
    (key : String) (fb : α)
    (h : store key = none ∨ store key = some "" ∨
      ∃ raw, store key = some raw ∧ parse raw = none) :
    loadJSON store parse key fb = fb := by
  rcases h with h | h | ⟨raw, h1, h2⟩
  · simp [loadJSON, h]
  · simp [loadJSON, h]
  · unfold loadJSON
    rw [h1]
    by_cases hr : raw = "" <;> simp [hr, h2]

/-- Witness for C10 at a concrete corrupted store. -/
theorem loadJSON_guard_witness :
    loadJSON (fun _ => some "not json") (fun _ => (none : Option Nat))
      "sms.students.v1" 42 = 42 :=
  loadJSON_guard _ _ _ _ (Or.inr (Or.inr ⟨"not json", rfl, rfl⟩))

/-- C8: for every collection, page size at least 1 and requested page index,
the returned slice has at most `pageSize` rows; any requested index at or past
`pageCount` returns exactly the last page; and on a nonempty collection the
returned page is never empty. -/
theorem pagination_clamp (l : List α) (pageIndex pageSize : Nat)
    (hps : 1 ≤ pageSize) :
    (pagedRows l pageIndex pageSize).length ≤ pageSize ∧
    (pageCount l.length pageSize ≤ pageIndex →
      pagedRows l pageIndex pageSize =
        pagedRows l (pageCount l.length pageSize - 1) pageSize) ∧
    (l ≠ [] → pagedRows l pageIndex pageSize ≠ []) := by
  refine ⟨?_, ?_, ?_⟩
  · simp [pagedRows]
  · intro hge
    have h1 : pageCount l.length pageSize - 1 ≤ pageIndex :=
      le_trans (Nat.sub_le _ _) hge
    simp [pagedRows, clampedPage, Nat.min_eq_right h1]
  · intro hne
    have hlen : 0 < l.length := List.length_pos.mpr hne
    have hq1 : 1 ≤ (l.length + pageSize - 1) / pageSize := by
      rw [Nat.le_div_iff_mul_le (by omega : 0 < pageSize)]
      omega
    have hqle : (l.length + pageSize - 1) / pageSize * pageSize ≤ l.length + pageSize - 1 :=
      Nat.div_mul_le_self _ _
    have hpc : pageCount l.length pageSize = (l.length + pageSize - 1) / pageSize := by
      simp [pageCount, Nat.max_eq_right hq1]
    have hclamp : clampedPage pageIndex l.length pageSize ≤
        (l.length + pageSize - 1) / pageSize - 1 := by
      simp [clampedPage, hpc]
    have hstart : clampedPage pageIndex l.length pageSize * pageSize < l.length := by
      have h2 : ((l.length + pageSize - 1) / pageSize - 1) * pageSize ≤ l.length - 1 := by
        have h3 : ((l.length + pageSize - 1) / pageSize - 1) * pageSize =
            (l.length + pageSize - 1) / pageSize * pageSize - pageSize := by
          rw [Nat.sub_mul, Nat.one_mul]
        omega
      calc clampedPage pageIndex l.length pageSize * pageSize
          ≤ ((l.length + pageSize - 1) / pageSize - 1) * pageSize :=
            Nat.mul_le_mul_right _ hclamp
        _ ≤ l.length - 1 := h2
        _ < l.length := by omega
    have hlenrows : (pagedRows l pageIndex pageSize).length =
        min pageSize (l.length - clampedPage pageIndex l.length pageSize * pageSize) := by
      simp [pagedRows]
    intro hnil
    rw [hnil] at hlenrows
    simp at hlenrows
    omega

/-- Witness for C8 at a concrete collection, page size 2, requested index 5. -/
theorem pagination_clamp_witness :
    (1 ≤ 2) ∧
    ((pagedRows [0, 1, 2] 5 2).length ≤ 2 ∧
      (pageCount (List.length [0, 1, 2]) 2 ≤ 5 →
        pagedRows [0, 1, 2] 5 2 =
          pagedRows [0, 1, 2] (pageCount (List.length [0, 1, 2]) 2 - 1) 2) ∧
      ([0, 1, 2] ≠ [] → pagedRows [0, 1, 2] 5 2 ≠ [])) :=
  ⟨by decide, pagination_clamp [0, 1, 2] 5 2 (by decide)⟩

/-- Length of the quote-doubling rewrite at the character-list level. -/
theorem flatten_escChar_length (l : List Char) :
    ((l.map fun c => if c == '"' then ['"', '"'] else [c]).flatten).length =
      l.length + l.count '"' := by
  induction l with
  | nil => rfl
  | cons c l ih =>
    rw [List.map_cons, List.flatten_cons, List.length_append, ih]
    by_cases hc : c = '"' <;> simp [List.count_cons, hc] <;> omega

/-- The quote-doubling rewrite exactly doubles the number of double-quotes. -/
theorem flatten_escChar_count (l : List Char) :
    ((l.map fun c => if c == '"' then ['"', '"'] else [c]).flatten).count '"' =
      2 * l.count '"' := by
  induction l with
  | nil => rfl
  | cons c l ih =>
    rw [List.map_cons, List.flatten_cons, List.count_append, ih]
    by_cases hc : c = '"'
    · simp [List.count_cons, hc]
      omega
    · simp [List.count_cons, hc]

/-- `doubleQuotes` grows a string by its number of double-quotes. -/
theorem doubleQuotes_length (s : String) :
    (doubleQuotes s).length = s.length + s.data.count '"' :=
  flatten_escChar_length s.data

/-- A quoted field is strictly longer than the raw value, hence distinct. -/
theorem esc_ne_of_special {s : String} (h : hasSpecialChar s = true) :
    esc s ≠ s := by
  intro heq
  have hlen : (esc s).length = s.length := congrArg String.length heq
  rw [esc, if_pos h] at hlen
  rw [String.length_append, String.length_append, doubleQuotes_length] at hlen
  have h1 : ("\"" : String).length = 1 := rfl
  omega

/-- Counterexample to C7 as stated: the `escape` helper of the unnamed export
module leaves a field containing a newline (but no comma or quote) unquoted,
although the field does contain one of the three characters the claim says
must force quoting. -/
theorem escapeField_newline_unquoted :
    hasSpecialChar "a\nb" = true ∧ escapeField "a\nb" = "a\nb" := by
  constructor
  · decide
  · rfl

/-- C7 (amended): `esc` of exportCsv.ts quotes a field iff it contains a
comma, double-quote or newline, doubling every inner double-quote, with fields
joined by commas and records by newlines, and the scenario value renders as
required; the variant `escape` of the unnamed export module instead quotes iff
the value contains a comma or a double-quote only (a newline alone does not
trigger quoting there). -/
theorem csvEscaping_amended :
    (∀ s, esc s ≠ s ↔ hasSpecialChar s = true) ∧
    (∀ s, hasSpecialChar s = true → esc s = "\"" ++ doubleQuotes s ++ "\"") ∧
    (∀ s, (doubleQuotes s).data.count '"' = 2 * s.data.count '"') ∧
    esc "Intro, \"Basics\"" = "\"Intro, \"\"Basics\"\"\"" ∧
    exportCsvString ["Code", "Title"] [["A,B", "x"], ["y", "z"]] =
      "Code,Title\n\"A,B\",x\ny,z" ∧
    (∀ s, escapeField s ≠ s ↔ (s.data.any fun c => c == ',' || c == '"') = true) := by
  refine ⟨?_, ?_, ?_, by decide, by decide, ?_⟩
  · intro s
    constructor
    · intro hne
      by_contra h
      exact hne (by simp [esc, Bool.not_eq_true _ ▸ h] )
    · exact esc_ne_of_special
  · intro s h
    simp [esc, h]
  · intro s
    exact flatten_escChar_count s.data
  · intro s
    constructor
    · intro hne
      by_contra h
      exact hne (by simp [escapeField, Bool.not_eq_true _ ▸ h])
    · intro h heq
      have hlen : (escapeField s).length = s.length := congrArg String.length heq
      rw [escapeField, if_pos h] at hlen
      rw [String.length_append, String.length_append, doubleQuotes_length] at hlen
      have h1 : ("\"" : String).length = 1 := rfl
      omega

/-- There are only two statuses, so "not Active" is exactly "Inactive". -/
theorem status_ne_active_iff (st : Status) :
    st ≠ Status.Active ↔ st = Status.Inactive := by
  cases st <;> simp

/-- A successful `studentsByEmail` lookup returns a member with exactly the
requested email. -/
theorem studentsByEmail_mem {students : List Student} {k : String} {s : Student}
    (h : studentsByEmail students k = some s) : s ∈ students ∧ s.email = k := by
  suffices H : ∀ (l : List Student) (acc : Option Student),
      l.foldl (fun acc x => if x.email == k then some x else acc) acc = some s →
      acc = some s ∨ (s ∈ l ∧ s.email = k) by
    rcases H students none h with h' | h'
    · exact Option.noConfusion h'
    · exact h'
  intro l
  induction l with
  | nil => intro acc h'; exact Or.inl h'
  | cons x l ih =>
    intro acc h'
    rw [List.foldl_cons] at h'
    rcases ih _ h' with h'' | h''
    · by_cases hx : x.email == k
      · rw [if_pos hx] at h''
        injection h'' with h''
        subst h''
        exact Or.inr ⟨List.mem_cons_self _ _, by simpa using hx⟩
      · rw [if_neg hx] at h''
        exact Or.inl h''
    · exact Or.inr ⟨List.mem_cons_of_mem _ h''.1, h''.2⟩

/-- A successful `coursesByCode` lookup returns a member with exactly the
requested code. -/
theorem coursesByCode_mem {courses : List Course} {k : String} {c : Course}
    (h : coursesByCode courses k = some c) : c ∈ courses ∧ c.code = k := by
  suffices H : ∀ (l : List Course) (acc : Option Course),
      l.foldl (fun acc x => if x.code == k then some x else acc) acc = some c →
      acc = some c ∨ (c ∈ l ∧ c.code = k) by
    rcases H courses none h with h' | h'
    · exact Option.noConfusion h'
    · exact h'
  intro l
  induction l with
  | nil => intro acc h'; exact Or.inl h'
  | cons x l ih =>
    intro acc h'
    rw [List.foldl_cons] at h'
    rcases ih _ h' with h'' | h''
    · by_cases hx : x.code == k
      · rw [if_pos hx] at h''
        injection h'' with h''
        subst h''
        exact Or.inr ⟨List.mem_cons_self _ _, by simpa using hx⟩
      · rw [if_neg hx] at h''
        exact Or.inl h''
    · exact Or.inr ⟨List.mem_cons_of_mem _ h''.1, h''.2⟩

/-- Counterexample to C1 as stated: the duplicate-pair check of `onEnroll`
compares with `===`, not case-insensitively. Here an enrollment for the same
(student, course) pair already exists with a differently-cased email, student
and course exist and are Active, yet the handler returns the success outcome
instead of the claimed DuplicateEnrollment rejection. -/
theorem onEnroll_caseSensitive_duplicate :
    ciEq "ALICE@X.COM" "alice@x.com" = true ∧
    onEnroll "alice@x.com" "MATH101"
      [⟨"Alice", "alice@x.com", "", Status.Active⟩]
      [⟨"MATH101", "Basic Math", 3, Status.Active⟩]
      [⟨"ALICE@X.COM", "MATH101", "t0"⟩] "t1" =
      EnrollOutcome.allowed ⟨"alice@x.com", "MATH101", "t1"⟩ := by
  constructor
  · decide
  · decide

/-- C1 (amended): `onEnroll` succeeds iff both selections are nonempty, the
exact-key (case-sensitive) lookups find the student and the course, both are
Active, and no enrollment with the exactly equal (studentEmail, courseCode)
pair exists; rejections happen in program order - empty selection first, then
a single silent rejection when either record is missing, then student
inactive, then course inactive, then the case-sensitive duplicate check. -/
theorem onEnroll_amended (se sc : String) (students : List Student)
    (courses : List Course) (enrollments : List Enrollment) (now : String) :
    (onEnroll se sc students courses enrollments now =
        EnrollOutcome.allowed ⟨se, sc, now⟩ ↔
      se ≠ "" ∧ sc ≠ "" ∧
      (∃ s, studentsByEmail students se = some s ∧ s.status = Status.Active) ∧
      (∃ c, coursesByCode courses sc = some c ∧ c.status = Status.Active) ∧
      ¬∃ e ∈ enrollments, e.studentEmail = se ∧ e.courseCode = sc) ∧
    (onEnroll se sc students courses enrollments now = EnrollOutcome.noSelection ↔
      se = "" ∨ sc = "") ∧
    (onEnroll se sc students courses enrollments now = EnrollOutcome.notFound ↔
      se ≠ "" ∧ sc ≠ "" ∧
      (studentsByEmail students se = none ∨ coursesByCode courses sc = none)) ∧
    (onEnroll se sc students courses enrollments now = EnrollOutcome.studentInactive ↔
      se ≠ "" ∧ sc ≠ "" ∧
      (∃ s, studentsByEmail students se = some s ∧ s.status = Status.Inactive) ∧
      (∃ c, coursesByCode courses sc = some c)) ∧
    (onEnroll se sc students courses enrollments now = EnrollOutcome.courseInactive ↔
      se ≠ "" ∧ sc ≠ "" ∧
      (∃ s, studentsByEmail students se = some s ∧ s.status = Status.Active) ∧
      (∃ c, coursesByCode courses sc = some c ∧ c.status = Status.Inactive)) ∧
    (onEnroll se sc students courses enrollments now = EnrollOutcome.duplicate ↔
      se ≠ "" ∧ sc ≠ "" ∧
      (∃ s, studentsByEmail students se = some s ∧ s.status = Status.Active) ∧
      (∃ c, coursesByCode courses sc = some c ∧ c.status = Status.Active) ∧
      ∃ e ∈ enrollments, e.studentEmail = se ∧ e.courseCode = sc) := by
  have hAny : (enrollments.any fun e => e.studentEmail == se && e.courseCode == sc) = true ↔
      ∃ e ∈ enrollments, e.studentEmail = se ∧ e.courseCode = sc := by
    simp [List.any_eq_true]
  unfold onEnroll
  by_cases h1 : se = ""
  · simp [h1]
  · by_cases h2 : sc = ""
    · simp [h1, h2]
    · have hcond : (se == "" || sc == "") = false := by simp [h1, h2]
      simp only [hcond, Bool.false_eq_true, if_false]
      cases hs : studentsByEmail students se with
      | none => simp [h1, h2, hs]
      | some s =>
        cases hc : coursesByCode courses sc with
        | none => simp [h1, h2, hs, hc]
        | some c =>
          by_cases hss : s.status = Status.Active
          · by_cases hcs : c.status = Status.Active
            · by_cases hd : ∃ e ∈ enrollments, e.studentEmail = se ∧ e.courseCode = sc
              · have hany : (enrollments.any fun e =>
                    e.studentEmail == se && e.courseCode == sc) = true := hAny.mpr hd
                simp [h1, h2, hss, hcs, hany, hd, status_ne_active_iff]
              · have hany : (enrollments.any fun e =>
                    e.studentEmail == se && e.courseCode == sc) = false := by
                  rw [← Bool.not_eq_true, hAny]
                  exact hd
                simp [h1, h2, hss, hcs, hany, hd, status_ne_active_iff]
            · simp [h1, h2, hss, hcs, status_ne_active_iff,
                (status_ne_active_iff c.status).mp hcs]
          · simp [h1, h2, hss, status_ne_active_iff,
              (status_ne_active_iff s.status).mp hss]

/-- C4: deleting a course leaves exactly the enrollments whose code does not
match case-insensitively, exactly the courses with a different (exact) code,
and rewrites each student in place, clearing precisely the case-insensitively
matching denormalized pointers while keeping everything else of the record. -/
theorem deleteCourse_cascade (target : Course) (st : State) :
    (∀ e, e ∈ (onDeleteCourse target st).enrollments ↔
      e ∈ st.enrollments ∧ ¬ciEq e.courseCode target.code = true) ∧
    (∀ c, c ∈ (onDeleteCourse target st).courses ↔
      c ∈ st.courses ∧ c.code ≠ target.code) ∧
    (∀ i : Nat, (onDeleteCourse target st).students[i]? =
      (st.students[i]?).map fun s =>
        if ciEq s.course target.code then { s with course := "" } else s) := by
  refine ⟨?_, ?_, ?_⟩
  · intro e
    simp [onDeleteCourse, List.mem_filter]
  · intro c
    simp [onDeleteCourse, List.mem_filter]
  · intro i
    simp [onDeleteCourse]

/-- C5: an applied student edit that changes the email (case-insensitively)
rewrites exactly the enrollments whose `studentEmail` matches the old email
case-insensitively to carry the new email verbatim, and leaves every other
enrollment unchanged (stated positionally over the whole collection). -/
theorem editStudent_email_cascade {editingEmail : String} {values : Student}
    {confirmOk : Bool} {st st' : State}
    (happly : onEditStudent editingEmail values confirmOk st = some st')
    (hch : ciEq editingEmail values.email = false) :
    ∀ i : Nat, st'.enrollments[i]? =
      (st.enrollments[i]?).map fun e =>
        if ciEq e.studentEmail editingEmail then { e with studentEmail := values.email }
        else e := by
  unfold onEditStudent at happly
  simp only [hch, Bool.not_false, Bool.true_and] at happly
  split at happly
  · exact Option.noConfusion happly
  · split at happly
    · exact Option.noConfusion happly
    · split at happly
      · exact Option.noConfusion happly
      · injection happly with h
        subst h
        intro i
        simp

/-- Witness for C5 on a one-student, one-enrollment state. -/
theorem editStudent_email_cascade_witness :
    (onEditStudent "a@x.com" ⟨"Alice", "b@y.com", "", Status.Active⟩ true
        ⟨[⟨"Alice", "a@x.com", "", Status.Active⟩], [],
          [⟨"a@x.com", "MATH101", "t0"⟩]⟩ =
      some ⟨[⟨"Alice", "b@y.com", "", Status.Active⟩], [],
        [⟨"b@y.com", "MATH101", "t0"⟩]⟩) ∧
    ciEq "a@x.com" "b@y.com" = false ∧
    ∀ i : Nat,
      (⟨[⟨"Alice", "b@y.com", "", Status.Active⟩], [],
        [⟨"b@y.com", "MATH101", "t0"⟩]⟩ : State).enrollments[i]? =
      ((⟨[⟨"Alice", "a@x.com", "", Status.Active⟩], [],
        [⟨"a@x.com", "MATH101", "t0"⟩]⟩ : State).enrollments[i]?).map fun e =>
        if ciEq e.studentEmail "a@x.com" then { e with studentEmail := "b@y.com" }
        else e :=
  ⟨by decide, by decide,
    @editStudent_email_cascade "a@x.com" ⟨"Alice", "b@y.com", "", Status.Active⟩ true
      ⟨[⟨"Alice", "a@x.com", "", Status.Active⟩], [],
        [⟨"a@x.com", "MATH101", "t0"⟩]⟩
      ⟨[⟨"Alice", "b@y.com", "", Status.Active⟩], [],
        [⟨"b@y.com", "MATH101", "t0"⟩]⟩
      (by decide) (by decide)⟩

/-- C6: a student edit whose email is unchanged (case-insensitively) never
touches the enrollment collection when applied; and a transition to Inactive
while enrollments reference the student is blocked unless the caller
confirms. -/
theorem editStudent_sameEmail_frame (editingEmail : String) (values : Student)
    (confirmOk : Bool) (st : State)
    (hsame : ciEq editingEmail values.email = true) :
    (∀ st', onEditStudent editingEmail values confirmOk st = some st' →
      st'.enrollments = st.enrollments) ∧
    ((values.status = Status.Inactive ∧
      (st.enrollments.any fun e => ciEq e.studentEmail editingEmail) = true ∧
      confirmOk = false) →
      onEditStudent editingEmail values confirmOk st = none) := by
  constructor
  · intro st' happly
    unfold onEditStudent at happly
    simp only [hsame, Bool.not_true, Bool.false_and, Bool.false_eq_true,
      if_false] at happly
    split at happly
    · exact Option.noConfusion happly
    · split at happly
      · exact Option.noConfusion happly
      · injection happly with h
        subst h
        rfl
  · rintro ⟨h1, h2, h3⟩
    unfold onEditStudent
    simp [hsame, h1, h2, h3]

/-- Witness for C6: a case-only email change plus an acknowledged
Active-to-Inactive transition leaves the single enrollment in place. -/
theorem editStudent_sameEmail_frame_witness :
    ciEq "a@x.com" "A@X.com" = true ∧
    ((∀ st', onEditStudent "a@x.com" ⟨"Alice", "A@X.com", "", Status.Inactive⟩ true
        ⟨[⟨"Alice", "a@x.com", "", Status.Active⟩], [],
          [⟨"a@x.com", "MATH101", "t0"⟩]⟩ = some st' →
      st'.enrollments =
        (⟨[⟨"Alice", "a@x.com", "", Status.Active⟩], [],
          [⟨"a@x.com", "MATH101", "t0"⟩]⟩ : State).enrollments) ∧
    (((⟨"Alice", "A@X.com", "", Status.Inactive⟩ : Student).status = Status.Inactive ∧
      ((⟨[⟨"Alice", "a@x.com", "", Status.Active⟩], [],
          [⟨"a@x.com", "MATH101", "t0"⟩]⟩ : State).enrollments.any fun e =>
        ciEq e.studentEmail "a@x.com") = true ∧
      (true : Bool) = false) →
      onEditStudent "a@x.com" ⟨"Alice", "A@X.com", "", Status.Inactive⟩ true
        ⟨[⟨"Alice", "a@x.com", "", Status.Active⟩], [],
          [⟨"a@x.com", "MATH101", "t0"⟩]⟩ = none)) :=
  ⟨by decide,
    editStudent_sameEmail_frame "a@x.com" ⟨"Alice", "A@X.com", "", Status.Inactive⟩ true
      ⟨[⟨"Alice", "a@x.com", "", Status.Active⟩], [],
        [⟨"a@x.com", "MATH101", "t0"⟩]⟩ (by decide)⟩

/-- The sort comparator is transitive for both directions. -/
theorem sortLE_trans (key : α → String) (d : SortDir) :
    ∀ a b c, sortLE key d a b → sortLE key d b c → sortLE key d a c := by
  intro a b c hab hbc
  cases d <;> simp only [sortLE, decide_eq_true_eq] at *
  · exact le_trans hab hbc
  · exact le_trans hbc hab

/-- The sort comparator is total for both directions. -/
theorem sortLE_total (key : α → String) (d : SortDir) :
    ∀ a b, sortLE key d a b || sortLE key d b a := by
  intro a b
  cases d <;> simp only [sortLE, Bool.or_eq_true, decide_eq_true_eq]
  · exact le_total _ _
  · exact le_total _ _

/-- Stability of `mergeSort`, in filter form: a class of elements on which the
comparator never strictly discriminates comes out in its original relative
order. -/
theorem mergeSort_filter_of_tied (le : α → α → Bool)
    (htrans : ∀ a b c, le a b → le b c → le a c)
    (htotal : ∀ a b, le a b || le b a)
    (p : α → Bool) (hp : ∀ a b, p a = true → p b = true → le a b = true)
    (l : List α) : (l.mergeSort le).filter p = l.filter p := by
  have hsub : List.Sublist (l.filter p) (l.mergeSort le) := by
    apply List.sublist_mergeSort htrans htotal
    · exact List.pairwise_of_forall_mem_list fun a ha b hb =>
        hp a b (List.of_mem_filter ha) (List.of_mem_filter hb)
    · exact List.filter_sublist l
  have hidem : (l.filter p).filter p = l.filter p :=
    List.filter_eq_self.mpr fun a ha => List.of_mem_filter ha
  have hsub2 : List.Sublist (l.filter p) ((l.mergeSort le).filter p) := by
    have h1 := hsub.filter p
    rwa [hidem] at h1
  have hperm : List.Perm ((l.mergeSort le).filter p) (l.filter p) :=
    (List.mergeSort_perm l le).filter p
  exact (hsub2.eq_of_length hperm.length_eq.symm).symm

/-- C9: with null `sortDir` the filtered order passes through; otherwise the
output is sorted on the lower-cased `sortKey` strings (descending uses the
flipped comparator), it is a permutation of the input, and the sort is stable:
for every key value the records carrying it keep their original relative
order, in the descending direction exactly as in the ascending one. -/
theorem sortedView_spec (key : α → String) (l : List α) :
    sortedView key none l = l ∧
    (sortedView key (some SortDir.asc) l).Pairwise
      (fun a b => lowerStr (key a) ≤ lowerStr (key b)) ∧
    (sortedView key (some SortDir.desc) l).Pairwise
      (fun a b => lowerStr (key b) ≤ lowerStr (key a)) ∧
    (∀ d, List.Perm (sortedView key (some d) l) l) ∧
    (∀ d v, (sortedView key (some d) l).filter (fun a => lowerStr (key a) == v) =
      l.filter fun a => lowerStr (key a) == v) ∧
    (∀ v, (sortedView key (some SortDir.desc) l).filter
        (fun a => lowerStr (key a) == v) =
      (sortedView key (some SortDir.asc) l).filter
        fun a => lowerStr (key a) == v) := by
  have hstable : ∀ d v, (sortedView key (some d) l).filter
      (fun a => lowerStr (key a) == v) = l.filter fun a => lowerStr (key a) == v := by
    intro d v
    apply mergeSort_filter_of_tied _ (sortLE_trans key d) (sortLE_total key d)
    intro a b ha hb
    have ha' : lowerStr (key a) = v := by simpa using ha
    have hb' : lowerStr (key b) = v := by simpa using hb
    cases d <;> simp [sortLE, ha', hb']
  refine ⟨rfl, ?_, ?_, ?_, hstable, ?_⟩
  · have h := @List.sorted_mergeSort _ (sortLE key SortDir.asc)
      (sortLE_trans key SortDir.asc) (sortLE_total key SortDir.asc) l
    exact h.imp fun hab => by simpa [sortLE, decide_eq_true_eq] using hab
  · have h := @List.sorted_mergeSort _ (sortLE key SortDir.desc)
      (sortLE_trans key SortDir.desc) (sortLE_total key SortDir.desc) l
    exact h.imp fun hab => by simpa [sortLE, decide_eq_true_eq] using hab
  · intro d
    exact List.mergeSort_perm l _
  · intro v
    rw [hstable SortDir.desc v, hstable SortDir.asc v]

/-- `ciEq` unfolds to equality of the lower-cased strings. -/
theorem ciEq_lower {a b : String} : ciEq a b = true ↔ lowerStr a = lowerStr b := by
  simp [ciEq]

/-- `ciEq` is reflexive. -/
theorem ciEq_refl (a : String) : ciEq a a = true := by
  simp [ciEq]

/-- A boolean that is not true is false. -/
theorem bool_eq_false {b : Bool} (h : ¬b = true) : b = false := by
  cases b
  · rfl
  · exact absurd rfl h

/-- If `any` is false, the predicate is false on every member. -/
theorem any_eq_false_mem {l : List α} {p : α → Bool} (h : l.any p = false) :
    ∀ x ∈ l, p x = false := by
  intro x hx
  cases hpx : p x
  · rfl
  · exfalso
    have hany : l.any p = true := List.any_eq_true.mpr ⟨x, hx, hpx⟩
    rw [h] at hany
    exact Bool.noConfusion hany

/-- Inversion of a successful `onAddStudent`: the new collection is the old
one with the candidate appended, and no existing email collides
case-insensitively. -/
theorem onAddStudent_some {v : Student} {students : List Student}
    {courses : List Course} {l : List Student}
    (h : onAddStudent v students courses = some l) :
    l = students ++ [v] ∧ ∀ x ∈ students, ciEq x.email v.email = false := by
  unfold onAddStudent at h
  split at h
  · exact Option.noConfusion h
  · rename_i hguard
    have hguard' := any_eq_false_mem (bool_eq_false hguard)
    split at h
    · exact Option.noConfusion h
    · injection h with h
      exact ⟨h.symm, hguard'⟩

/-- Inversion of a successful `onAddCourse`. -/
theorem onAddCourse_some {v : Course} {courses l : List Course}
    (h : onAddCourse v courses = some l) :
    l = courses ++ [v] ∧ ∀ x ∈ courses, ciEq x.code v.code = false := by
  unfold onAddCourse at h
  split at h
  · exact Option.noConfusion h
  · rename_i hguard
    injection h with h
    exact ⟨h.symm, any_eq_false_mem (bool_eq_false hguard)⟩

/-- Inversion of a successful `onEditStudent`: the courses are untouched, the
students are the in-place rewrite at the exact old email, and the enrollments
are rewritten iff the email changed case-insensitively, in which case the
uniqueness guard additionally ensures no existing email collides with the new
one. -/
theorem onEditStudent_some {editingEmail : String} {values : Student}
    {confirmOk : Bool} {st st' : State}
    (h : onEditStudent editingEmail values confirmOk st = some st') :
    st'.courses = st.courses ∧
    st'.students = (st.students.map fun s =>
      if s.email == editingEmail then values else s) ∧
    ((ciEq editingEmail values.email = false ∧
      (∀ x ∈ st.students, ciEq x.email values.email = false) ∧
      st'.enrollments = (st.enrollments.map fun e =>
        if ciEq e.studentEmail editingEmail then { e with studentEmail := values.email }
        else e)) ∨
     (ciEq editingEmail values.email = true ∧ st'.enrollments = st.enrollments)) := by
  unfold onEditStudent at h
  by_cases hch : ciEq editingEmail values.email = true
  · simp only [hch, Bool.not_true, Bool.false_and, Bool.false_eq_true, if_false] at h
    split at h
    · exact Option.noConfusion h
    · split at h
      · exact Option.noConfusion h
      · injection h with h
        subst h
        exact ⟨rfl, rfl, Or.inr ⟨hch, rfl⟩⟩
  · have hch' : ciEq editingEmail values.email = false := bool_eq_false hch
    simp only [hch', Bool.not_false, Bool.true_and, if_true] at h
    cases hany : st.students.any fun x => ciEq x.email values.email
    · rw [hany] at h
      simp only [Bool.false_eq_true, if_false] at h
      split at h
      · exact Option.noConfusion h
      · split at h
        · exact Option.noConfusion h
        · injection h with h
          subst h
          exact ⟨rfl, rfl, Or.inl ⟨hch', any_eq_false_mem hany, rfl⟩⟩
    · rw [hany] at h
      simp at h

/-- Inversion of a successful `onEditCourse`, mirror of the student case, with
the cascades into student pointers and enrollments on a code change. -/
theorem onEditCourse_some {editingCode : String} {values : Course}
    {confirmOk : Bool} {st st' : State}
    (h : onEditCourse editingCode values confirmOk st = some st') :
    st'.courses = (st.courses.map fun c =>
      if c.code == editingCode then values else c) ∧
    ((ciEq editingCode values.code = false ∧
      (∀ x ∈ st.courses, ciEq x.code values.code = false) ∧
      st'.students = (st.students.map fun s =>
        if ciEq s.course editingCode then { s with course := values.code } else s) ∧
      st'.enrollments = (st.enrollments.map fun e =>
        if ciEq e.courseCode editingCode then { e with courseCode := values.code }
        else e)) ∨
     (ciEq editingCode values.code = true ∧ st'.students = st.students ∧
      st'.enrollments = st.enrollments)) := by
  unfold onEditCourse at h
  by_cases hch : ciEq editingCode values.code = true
  · simp only [hch, Bool.not_true, Bool.false_and, Bool.false_eq_true, if_false] at h
    split at h
    · exact Option.noConfusion h
    · injection h with h
      subst h
      exact ⟨rfl, Or.inr ⟨hch, rfl, rfl⟩⟩
  · have hch' : ciEq editingCode values.code = false := bool_eq_false hch
    simp only [hch', Bool.not_false, Bool.true_and, if_true] at h
    cases hany : st.courses.any fun x => ciEq x.code values.code
    · rw [hany] at h
      simp only [Bool.false_eq_true, if_false] at h
      split at h
      · exact Option.noConfusion h
      · injection h with h
        subst h
        exact ⟨rfl, Or.inl ⟨hch', any_eq_false_mem hany, rfl, rfl⟩⟩
    · rw [hany] at h
      simp at h

/-- Inversion of a successful `onEnroll`: the created record carries exactly
the selected keys, and both referenced records are present with exactly those
keys. -/
theorem onEnroll_allowed {se sc now : String} {students : List Student}
    {courses : List Course} {enrollments : List Enrollment} {e0 : Enrollment}
    (h : onEnroll se sc students courses enrollments now = .allowed e0) :
    e0 = ⟨se, sc, now⟩ ∧ (∃ s ∈ students, s.email = se) ∧
      ∃ c ∈ courses, c.code = sc := by
  unfold onEnroll at h
  split at h
  · exact EnrollOutcome.noConfusion h
  · split at h
    · exact EnrollOutcome.noConfusion h
    · exact EnrollOutcome.noConfusion h
    · rename_i s c hs hc
      split at h
      · exact EnrollOutcome.noConfusion h
      · split at h
        · exact EnrollOutcome.noConfusion h
        · split at h
          · exact EnrollOutcome.noConfusion h
          · injection h with h
            obtain ⟨hsm, hse⟩ := studentsByEmail_mem hs
            obtain ⟨hcm, hce⟩ := coursesByCode_mem hc
            exact ⟨h.symm, ⟨s, hsm, hse⟩, ⟨c, hcm, hce⟩⟩

/-- One-step preservation of the no-dangling invariant: every handler either
rejects (leaving the state unchanged) or keeps every surviving enrollment's
references resolvable. -/
theorem noDangling_applyOp {st : State} {op : Op} (hv : ValidOp st op)
    (h : NoDangling st) : NoDangling (applyOp st op) := by
  cases op with
  | addStudent v =>
    simp only [applyOp]
    cases hadd : onAddStudent v st.students st.courses with
    | none => exact h
    | some l =>
      obtain ⟨hl, -⟩ := onAddStudent_some hadd
      subst hl
      intro e he
      obtain ⟨⟨s0, hs0, hs0e⟩, hc⟩ := h e he
      exact ⟨⟨s0, List.mem_append_left _ hs0, hs0e⟩, hc⟩
  | editStudent em v ok =>
    simp only [applyOp]
    cases happ : onEditStudent em v ok st with
    | none => exact h
    | some st' =>
      obtain ⟨hcs, hstud, hrest⟩ := onEditStudent_some happ
      obtain ⟨sStar, hsStar, hsStarE⟩ := hv
      show NoDangling st'
      intro e he
      rcases hrest with ⟨hch, hnone, henr⟩ | ⟨hch, henr⟩
      · rw [henr] at he
        obtain ⟨e0, he0, rfl⟩ := List.mem_map.mp he
        obtain ⟨⟨s0, hs0, hs0e⟩, ⟨c0, hc0, hc0e⟩⟩ := h e0 he0
        by_cases hm : ciEq e0.studentEmail em = true
        · rw [if_pos hm]
          constructor
          · refine ⟨v, ?_, ciEq_refl _⟩
            rw [hstud]
            exact List.mem_map.mpr ⟨sStar, hsStar, by rw [if_pos (by simp [hsStarE])]⟩
          · rw [hcs]
            exact ⟨c0, hc0, hc0e⟩
        · rw [if_neg hm]
          constructor
          · refine ⟨s0, ?_, hs0e⟩
            rw [hstud]
            refine List.mem_map.mpr ⟨s0, hs0, ?_⟩
            have hne : ¬(s0.email == em) = true := by
              intro hbe
              have heq : s0.email = em := by simpa using hbe
              apply hm
              rw [ciEq_lower] at hs0e ⊢
              rw [← heq]
              exact hs0e.symm
            rw [if_neg hne]
          · rw [hcs]
            exact ⟨c0, hc0, hc0e⟩
      · rw [henr] at he
        obtain ⟨⟨s0, hs0, hs0e⟩, ⟨c0, hc0, hc0e⟩⟩ := h e he
        constructor
        · by_cases hm : (s0.email == em) = true
          · refine ⟨v, ?_, ?_⟩
            · rw [hstud]
              exact List.mem_map.mpr ⟨s0, hs0, by rw [if_pos hm]⟩
            · have heq : s0.email = em := by simpa using hm
              rw [ciEq_lower] at hch hs0e ⊢
              rw [← hch, ← heq]
              exact hs0e
          · refine ⟨s0, ?_, hs0e⟩
            rw [hstud]
            exact List.mem_map.mpr ⟨s0, hs0, by rw [if_neg hm]⟩
        · rw [hcs]
          exact ⟨c0, hc0, hc0e⟩
  | deleteStudent t =>
    simp only [applyOp, onDeleteStudent]
    intro e he
    rw [List.mem_filter] at he
    obtain ⟨he, hkeep⟩ := he
    obtain ⟨⟨s0, hs0, hs0e⟩, hc⟩ := h e he
    constructor
    · refine ⟨s0, ?_, hs0e⟩
      rw [List.mem_filter]
      refine ⟨hs0, ?_⟩
      rw [bne_iff_ne]
      intro heq
      have hkeep' : ciEq e.studentEmail t.email = false := by simpa using hkeep
      have hcontra : ciEq e.studentEmail t.email = true := by
        rw [ciEq_lower] at hs0e ⊢
        rw [← heq]
        exact hs0e.symm
      rw [hkeep'] at hcontra
      exact Bool.noConfusion hcontra
    · exact hc
  | addCourse v =>
    simp only [applyOp]
    cases hadd : onAddCourse v st.courses with
    | none => exact h
    | some l =>
      obtain ⟨hl, -⟩ := onAddCourse_some hadd
      subst hl
      intro e he
      obtain ⟨hs, ⟨c0, hc0, hc0e⟩⟩ := h e he
      exact ⟨hs, ⟨c0, List.mem_append_left _ hc0, hc0e⟩⟩
  | addCourseBasic v =>
    simp only [applyOp, onSubmitCourseBasic]
    intro e he
    obtain ⟨hs, ⟨c0, hc0, hc0e⟩⟩ := h e he
    exact ⟨hs, ⟨c0, List.mem_append_left _ hc0, hc0e⟩⟩
  | editCourse ec v ok =>
    simp only [applyOp]
    cases happ : onEditCourse ec v ok st with
    | none => exact h
    | some st' =>
      obtain ⟨hcrs, hrest⟩ := onEditCourse_some happ
      obtain ⟨cStar, hcStar, hcStarC⟩ := hv
      show NoDangling st'
      intro e he
      rcases hrest with ⟨hch, hnone, hstud, henr⟩ | ⟨hch, hstud, henr⟩
      · rw [henr] at he
        obtain ⟨e0, he0, rfl⟩ := List.mem_map.mp he
        obtain ⟨⟨s0, hs0, hs0e⟩, ⟨c0, hc0, hc0e⟩⟩ := h e0 he0
        by_cases hm : ciEq e0.courseCode ec = true
        · rw [if_pos hm]
          constructor
          · rw [hstud]
            refine ⟨_, List.mem_map_of_mem _ hs0, ?_⟩
            split
            · exact hs0e
            · exact hs0e
          · refine ⟨v, ?_, ciEq_refl _⟩
            rw [hcrs]
            exact List.mem_map.mpr ⟨cStar, hcStar, by rw [if_pos (by simp [hcStarC])]⟩
        · rw [if_neg hm]
          constructor
          · rw [hstud]
            refine ⟨_, List.mem_map_of_mem _ hs0, ?_⟩
            split
            · exact hs0e
            · exact hs0e
          · refine ⟨c0, ?_, hc0e⟩
            rw [hcrs]
            refine List.mem_map.mpr ⟨c0, hc0, ?_⟩
            have hne : ¬(c0.code == ec) = true := by
              intro hbe
              have heq : c0.code = ec := by simpa using hbe
              apply hm
              rw [ciEq_lower] at hc0e ⊢
              rw [← heq]
              exact hc0e.symm
            rw [if_neg hne]
      · rw [henr] at he
        obtain ⟨⟨s0, hs0, hs0e⟩, ⟨c0, hc0, hc0e⟩⟩ := h e he
        constructor
        · rw [hstud]
          exact ⟨s0, hs0, hs0e⟩
        · by_cases hm : (c0.code == ec) = true
          · refine ⟨v, ?_, ?_⟩
            · rw [hcrs]
              exact List.mem_map.mpr ⟨c0, hc0, by rw [if_pos hm]⟩
            · have heq : c0.code = ec := by simpa using hm
              rw [ciEq_lower] at hch hc0e ⊢
              rw [← hch, ← heq]
              exact hc0e
          · refine ⟨c0, ?_, hc0e⟩
            rw [hcrs]
            exact List.mem_map.mpr ⟨c0, hc0, by rw [if_neg hm]⟩
  | deleteCourse t =>
    simp only [applyOp, onDeleteCourse]
    intro e he
    rw [List.mem_filter] at he
    obtain ⟨he, hkeep⟩ := he
    obtain ⟨⟨s0, hs0, hs0e⟩, ⟨c0, hc0, hc0e⟩⟩ := h e he
    constructor
    · refine ⟨_, List.mem_map_of_mem _ hs0, ?_⟩
      split
      · exact hs0e
      · exact hs0e
    · refine ⟨c0, ?_, hc0e⟩
      rw [List.mem_filter]
      refine ⟨hc0, ?_⟩
      rw [bne_iff_ne]
      intro heq
      have hkeep' : ciEq e.courseCode t.code = false := by simpa using hkeep
      have hcontra : ciEq e.courseCode t.code = true := by
        rw [ciEq_lower] at hc0e ⊢
        rw [← heq]
        exact hc0e.symm
      rw [hkeep'] at hcontra
      exact Bool.noConfusion hcontra
  | enroll se sc now =>
    simp only [applyOp, applyEnroll]
    cases hE : onEnroll se sc st.students st.courses st.enrollments now with
    | noSelection => exact h
    | notFound => exact h
    | studentInactive => exact h
    | courseInactive => exact h
    | duplicate => exact h
    | allowed e0 =>
      obtain ⟨he0, ⟨s1, hs1, hs1e⟩, ⟨c1, hc1, hc1e⟩⟩ := onEnroll_allowed hE
      subst he0
      intro e he
      rcases List.mem_append.mp he with he' | he'
      · exact h e he'
      · have heq : e = ⟨se, sc, now⟩ := by simpa using he'
        subst heq
        constructor
        · refine ⟨s1, hs1, ?_⟩
          rw [hs1e]
          exact ciEq_refl _
        · refine ⟨c1, hc1, ?_⟩
          rw [hc1e]
          exact ciEq_refl _
  | deleteEnrollment en =>
    simp only [applyOp, onDeleteEnrollment]
    intro e he
    rw [List.mem_filter] at he
    exact h e he.1
  | clearEnrollments =>
    simp only [applyOp]
    intro e he
    exact absurd he (List.not_mem_nil e)

/-- C2: starting from a state with no dangling references, every sequence of
UI operations (creates, edits with their reachability side condition, deletes,
enrolls) preserves the invariant: every surviving enrollment references a
student and a course that still exist. -/
theorem noDangling_preserved (ops : List Op) :
    ∀ st : State, ValidTrace st ops → NoDangling st →
      NoDangling (applyOps st ops) := by
  induction ops with
  | nil =>
    intro st _ h
    exact h
  | cons op ops ih =>
    intro st hv h
    exact ih (applyOp st op) hv.2 (noDangling_applyOp hv.1 h)

/-- Witness for C2 on a concrete one-of-each state and a student deletion. -/
theorem noDangling_preserved_witness :
    ValidTrace
      ⟨[⟨"Alice", "alice@x.com", "", Status.Active⟩],
        [⟨"MATH101", "Basic Math", 3, Status.Active⟩],
        [⟨"alice@x.com", "MATH101", "t0"⟩]⟩
      [Op.deleteStudent ⟨"Alice", "alice@x.com", "", Status.Active⟩] ∧
    NoDangling
      ⟨[⟨"Alice", "alice@x.com", "", Status.Active⟩],
        [⟨"MATH101", "Basic Math", 3, Status.Active⟩],
        [⟨"alice@x.com", "MATH101", "t0"⟩]⟩ ∧
    NoDangling (applyOps
      ⟨[⟨"Alice", "alice@x.com", "", Status.Active⟩],
        [⟨"MATH101", "Basic Math", 3, Status.Active⟩],
        [⟨"alice@x.com", "MATH101", "t0"⟩]⟩
      [Op.deleteStudent ⟨"Alice", "alice@x.com", "", Status.Active⟩]) :=
  ⟨⟨trivial, trivial⟩, by decide,
    noDangling_preserved
      [Op.deleteStudent ⟨"Alice", "alice@x.com", "", Status.Active⟩]
      ⟨[⟨"Alice", "alice@x.com", "", Status.Active⟩],
        [⟨"MATH101", "Basic Math", 3, Status.Active⟩],
        [⟨"alice@x.com", "MATH101", "t0"⟩]⟩
      ⟨trivial, trivial⟩ (by decide)⟩

/-- Counterexample to C3 as stated: the basic Courses page variant's
`onSubmit` appends without any duplicate check, so an add that introduces a
case-insensitive duplicate code is NOT rejected - from a state with unique
codes it produces a collection with two case-insensitively equal codes. -/
theorem basicAdd_breaks_uniqueness :
    UniqueCodes
      (⟨[], [⟨"MATH101", "Basic Math", 3, Status.Active⟩], []⟩ : State).courses ∧
    ¬UniqueCodes
      (applyOp ⟨[], [⟨"MATH101", "Basic Math", 3, Status.Active⟩], []⟩
        (Op.addCourseBasic ⟨"math101", "Basic Math Again", 3, Status.Active⟩)).courses := by
  constructor
  · decide
  · decide

/-- In-place student rewrite at an exact old email keeps emails pairwise
distinct, given either the duplicate guard (email changed) or a case-only
change. -/
theorem uniqueEmails_editMap {l : List Student} {em : String} {v : Student}
    (h : l.Pairwise fun a b => ¬ciEq a.email b.email = true)
    (hcase : (∀ x ∈ l, ciEq x.email v.email = false) ∨ ciEq em v.email = true) :
    (l.map fun s => if s.email == em then v else s).Pairwise
      fun a b => ¬ciEq a.email b.email = true := by
  rw [List.pairwise_map]
  refine List.Pairwise.imp_of_mem ?_ h
  intro a b ha hb hab
  by_cases hae : (a.email == em) = true
  · by_cases hbe : (b.email == em) = true
    · exfalso
      apply hab
      have ha' : a.email = em := by simpa using hae
      have hb' : b.email = em := by simpa using hbe
      rw [ciEq_lower, ha', hb']
    · rw [if_pos hae, if_neg hbe]
      intro hcontra
      rcases hcase with hnone | hch
      · have h2 : ciEq b.email v.email = true := by
          rw [ciEq_lower] at hcontra ⊢
          exact hcontra.symm
        rw [hnone b hb] at h2
        exact Bool.noConfusion h2
      · apply hab
        have ha' : a.email = em := by simpa using hae
        rw [ciEq_lower] at hch hcontra ⊢
        rw [ha', hch]
        exact hcontra
  · by_cases hbe : (b.email == em) = true
    · rw [if_neg hae, if_pos hbe]
      intro hcontra
      rcases hcase with hnone | hch
      · rw [hnone a ha] at hcontra
        exact Bool.noConfusion hcontra
      · apply hab
        have hb' : b.email = em := by simpa using hbe
        rw [ciEq_lower] at hch hcontra ⊢
        rw [hb', hch]
        exact hcontra
    · rw [if_neg hae, if_neg hbe]
      exact hab

/-- Mirror of `uniqueEmails_editMap` for course codes. -/
theorem uniqueCodes_editMap {l : List Course} {ec : String} {v : Course}
    (h : l.Pairwise fun a b => ¬ciEq a.code b.code = true)
    (hcase : (∀ x ∈ l, ciEq x.code v.code = false) ∨ ciEq ec v.code = true) :
    (l.map fun c => if c.code == ec then v else c).Pairwise
      fun a b => ¬ciEq a.code b.code = true := by
  rw [List.pairwise_map]
  refine List.Pairwise.imp_of_mem ?_ h
  intro a b ha hb hab
  by_cases hae : (a.code == ec) = true
  · by_cases hbe : (b.code == ec) = true
    · exfalso
      apply hab
      have ha' : a.code = ec := by simpa using hae
      have hb' : b.code = ec := by simpa using hbe
      rw [ciEq_lower, ha', hb']
    · rw [if_pos hae, if_neg hbe]
      intro hcontra
      rcases hcase with hnone | hch
      · have h2 : ciEq b.code v.code = true := by
          rw [ciEq_lower] at hcontra ⊢
          exact hcontra.symm
        rw [hnone b hb] at h2
        exact Bool.noConfusion h2
      · apply hab
        have ha' : a.code = ec := by simpa using hae
        rw [ciEq_lower] at hch hcontra ⊢
        rw [ha', hch]
        exact hcontra
  · by_cases hbe : (b.code == ec) = true
    · rw [if_neg hae, if_pos hbe]
      intro hcontra
      rcases hcase with hnone | hch
      · rw [hnone a ha] at hcontra
        exact Bool.noConfusion hcontra
      · apply hab
        have hb' : b.code = ec := by simpa using hbe
        rw [ciEq_lower] at hch hcontra ⊢
        rw [hb', hch]
        exact hcontra
    · rw [if_neg hae, if_neg hbe]
      exact hab

/-- A map that does not touch emails keeps emails pairwise distinct. -/
theorem uniqueEmails_map_email_eq {l : List Student} {f : Student → Student}
    (hf : ∀ s, (f s).email = s.email)
    (h : l.Pairwise fun a b => ¬ciEq a.email b.email = true) :
    (l.map f).Pairwise fun a b => ¬ciEq a.email b.email = true := by
  rw [List.pairwise_map]
  refine h.imp ?_
  intro a b hab
  rw [hf, hf]
  exact hab

/-- One-step preservation of the student email uniqueness invariant, for
every operation. -/
theorem uniqueEmails_applyOp {st : State} (op : Op)
    (h : UniqueEmails st.students) : UniqueEmails (applyOp st op).students := by
  cases op with
  | addStudent v =>
    simp only [applyOp]
    cases hadd : onAddStudent v st.students st.courses with
    | none => exact h
    | some l =>
      obtain ⟨hl, hguard⟩ := onAddStudent_some hadd
      subst hl
      refine List.pairwise_append.mpr ⟨h, List.pairwise_singleton _ _, ?_⟩
      intro a ha b hb
      have hb' : b = v := by simpa using hb
      subst hb'
      intro hcontra
      rw [hguard a ha] at hcontra
      exact Bool.noConfusion hcontra
  | editStudent em v ok =>
    simp only [applyOp]
    cases happ : onEditStudent em v ok st with
    | none => exact h
    | some st' =>
      obtain ⟨-, hstud, hrest⟩ := onEditStudent_some happ
      have hcase : (∀ x ∈ st.students, ciEq x.email v.email = false) ∨
          ciEq em v.email = true := by
        rcases hrest with ⟨-, hnone, -⟩ | ⟨hch, -⟩
        · exact Or.inl hnone
        · exact Or.inr hch
      show UniqueEmails st'.students
      rw [hstud]
      exact uniqueEmails_editMap h hcase
  | deleteStudent t =>
    simp only [applyOp, onDeleteStudent]
    exact List.Pairwise.sublist (List.filter_sublist _) h
  | addCourse v =>
    simp only [applyOp]
    cases hadd : onAddCourse v st.courses with
    | none => exact h
    | some l => exact h
  | addCourseBasic v => exact h
  | editCourse ec v ok =>
    simp only [applyOp]
    cases happ : onEditCourse ec v ok st with
    | none => exact h
    | some st' =>
      obtain ⟨-, hrest⟩ := onEditCourse_some happ
      show UniqueEmails st'.students
      rcases hrest with ⟨-, -, hstud, -⟩ | ⟨-, hstud, -⟩
      · rw [hstud]
        refine uniqueEmails_map_email_eq ?_ h
        intro s
        split
        · rfl
        · rfl
      · rw [hstud]
        exact h
  | deleteCourse t =>
    simp only [applyOp, onDeleteCourse]
    refine uniqueEmails_map_email_eq ?_ h
    intro s
    split
    · rfl
    · rfl
  | enroll se sc now =>
    simp only [applyOp, applyEnroll]
    cases hE : onEnroll se sc st.students st.courses st.enrollments now with
    | noSelection => exact h
    | notFound => exact h
    | studentInactive => exact h
    | courseInactive => exact h
    | duplicate => exact h
    | allowed e0 => exact h
  | deleteEnrollment en => exact h
  | clearEnrollments => exact h

/-- One-step preservation of the course code uniqueness invariant, for every
operation available on the integrity-checking pages. -/
theorem uniqueCodes_applyOp {st : State} {op : Op} (hop : NotBasicAdd op)
    (h : UniqueCodes st.courses) : UniqueCodes (applyOp st op).courses := by
  cases op with
  | addStudent v =>
    simp only [applyOp]
    cases hadd : onAddStudent v st.students st.courses with
    | none => exact h
    | some l => exact h
  | editStudent em v ok =>
    simp only [applyOp]
    cases happ : onEditStudent em v ok st with
    | none => exact h
    | some st' =>
      obtain ⟨hcs, -, -⟩ := onEditStudent_some happ
      show UniqueCodes st'.courses
      rw [hcs]
      exact h
  | deleteStudent t => exact h
  | addCourse v =>
    simp only [applyOp]
    cases hadd : onAddCourse v st.courses with
    | none => exact h
    | some l =>
      obtain ⟨hl, hguard⟩ := onAddCourse_some hadd
      subst hl
      refine List.pairwise_append.mpr ⟨h, List.pairwise_singleton _ _, ?_⟩
      intro a ha b hb
      have hb' : b = v := by simpa using hb
      subst hb'
      intro hcontra
      rw [hguard a ha] at hcontra
      exact Bool.noConfusion hcontra
  | addCourseBasic v => exact hop.elim
  | editCourse ec v ok =>
    simp only [applyOp]
    cases happ : onEditCourse ec v ok st with
    | none => exact h
    | some st' =>
      obtain ⟨hcrs, hrest⟩ := onEditCourse_some happ
      have hcase : (∀ x ∈ st.courses, ciEq x.code v.code = false) ∨
          ciEq ec v.code = true := by
        rcases hrest with ⟨-, hnone, -⟩ | ⟨hch, -⟩
        · exact Or.inl hnone
        · exact Or.inr hch
      show UniqueCodes st'.courses
      rw [hcrs]
      exact uniqueCodes_editMap h hcase
  | deleteCourse t =>
    simp only [applyOp, onDeleteCourse]
    exact List.Pairwise.sublist (List.filter_sublist _) h
  | enroll se sc now =>
    simp only [applyOp, applyEnroll]
    cases hE : onEnroll se sc st.students st.courses st.enrollments now with
    | noSelection => exact h
    | notFound => exact h
    | studentInactive => exact h
    | courseInactive => exact h
    | duplicate => exact h
    | allowed e0 => exact h
  | deleteEnrollment en => exact h
  | clearEnrollments => exact h

/-- C3 (amended): through the integrity-checking pages' operations (every
operation except the basic Courses variant's unchecked `onSubmit`), no
sequence of creates, updates and deletes can ever produce two students with
case-insensitively equal emails or two courses with case-insensitively equal
codes. -/
theorem uniqueness_preserved (ops : List Op) :
    ∀ st : State, (∀ op ∈ ops, NotBasicAdd op) →
      UniqueEmails st.students → UniqueCodes st.courses →
      UniqueEmails (applyOps st ops).students ∧
        UniqueCodes (applyOps st ops).courses := by
  induction ops with
  | nil =>
    intro st _ h1 h2
    exact ⟨h1, h2⟩
  | cons op ops ih =>
    intro st hops h1 h2
    have hop : NotBasicAdd op := hops op (List.mem_cons_self _ _)
    have hops' : ∀ o ∈ ops, NotBasicAdd o := fun o ho =>
      hops o (List.mem_cons_of_mem _ ho)
    exact ih (applyOp st op) hops' (uniqueEmails_applyOp op h1)
      (uniqueCodes_applyOp hop h2)

/-- Witness for the amended C3 on a concrete state and a guarded add. -/
theorem uniqueness_preserved_witness :
    (∀ op ∈ [Op.addStudent ⟨"Bob", "bob@x.com", "", Status.Active⟩], NotBasicAdd op) ∧
    UniqueEmails [⟨"Alice", "alice@x.com", "", Status.Active⟩] ∧
    UniqueCodes [⟨"MATH101", "Basic Math", 3, Status.Active⟩] ∧
    (UniqueEmails (applyOps
        ⟨[⟨"Alice", "alice@x.com", "", Status.Active⟩],
          [⟨"MATH101", "Basic Math", 3, Status.Active⟩], []⟩
        [Op.addStudent ⟨"Bob", "bob@x.com", "", Status.Active⟩]).students ∧
      UniqueCodes (applyOps
        ⟨[⟨"Alice", "alice@x.com", "", Status.Active⟩],
          [⟨"MATH101", "Basic Math", 3, Status.Active⟩], []⟩
        [Op.addStudent ⟨"Bob", "bob@x.com", "", Status.Active⟩]).courses) :=
  ⟨fun op hop => by
      rw [List.mem_singleton] at hop
      subst hop
      trivial,
    by decide, by decide,
    uniqueness_preserved [Op.addStudent ⟨"Bob", "bob@x.com", "", Status.Active⟩]
      ⟨[⟨"Alice", "alice@x.com", "", Status.Active⟩],
        [⟨"MATH101", "Basic Math", 3, Status.Active⟩], []⟩
      (fun op hop => by
        rw [List.mem_singleton] at hop
        subst hop
        trivial)
      (by decide) (by decide)⟩

end StudentMgmt
